import Mathlib

/-!
Verification development for the live-transcription tool.

This file gives a shallow embedding of the core components of the
repository and proves the specification claims about them:

1. the chunk dispatch queue of src/hooks/useAudioCapture.ts
   (processQueue, sendChunk);
2. the voice-activity-detection AudioWorklet processor of
   src/public/audio-processor.js (AudioVADProcessor);
3. the transcription entry point of the whisper hook
   (transcribe: minimum-sample validation, error absorption);
4. the hallucination filters of src/app/whisper-worker.ts and the
   result handling of src/app/page.tsx (handleAudioChunk);
5. the document merge engine of src/components/TranscriptEditor.tsx
   (appendText) and the UneditedMark ProseMirror plugin
   (appendTransaction) of the tiptap extensions.

Machine reals (Float32 samples, float clock values) are modelled as
rationals; the speech classifier compares squared quantities instead of
taking a square root (sqrt(sum over n) is greater than t iff t is
negative or t*t*n is less than sum, for nonempty frames), which is proved
equivalent to the real-valued comparison below.
-/

namespace LiveTranscription

/-! ### Part 1: chunk dispatch queue (src/hooks/useAudioCapture.ts)

The queue state mirrors the refs of the hook: pendingChunksRef (a FIFO
list), isProcessingRef (a boolean flag).  Chunks are abstracted by
natural-number identities.  In addition the state carries two histories
that the code determines but does not store: inFlight, the list of
transcription invocations started and not yet settled, and invoked /
enqueued, the cumulative order of callback invocations and of enqueues.
The onAudioChunk callback is assumed installed (startRecording sets it
before the processor runs). -/

structure QueueState where
  pending : List Nat
  isProcessing : Bool
  inFlight : List Nat
  invoked : List Nat
  enqueued : List Nat
deriving Repr, DecidableEq

def QueueState.init : QueueState := ⟨[], false, [], [], []⟩

/-- The synchronous part of processQueue (useAudioCapture.ts lines 88-95):
return if already processing or the queue is empty; otherwise set
isProcessing, shift the head chunk and start the (async) transcription
callback on it. -/
def processQueue (s : QueueState) : QueueState :=
  if s.isProcessing then s
  else
    match s.pending with
    | [] => s
    | c :: rest =>
      { s with
        pending := rest
        isProcessing := true
        inFlight := s.inFlight ++ [c]
        invoked := s.invoked ++ [c] }

/-- sendChunk's queue interaction (useAudioCapture.ts lines 108-120):
push the chunk onto pendingChunksRef, then call processQueue. -/
def enqueueChunk (c : Nat) (s : QueueState) : QueueState :=
  processQueue
    { s with
      pending := s.pending ++ [c]
      enqueued := s.enqueued ++ [c] }

/-- Settlement of the awaited callback (useAudioCapture.ts lines 96-104).
A rejection is caught and only logged, so the outcome flag is not used;
the finally block clears isProcessing and calls processQueue again. -/
def completeChunk (ok : Bool) (s : QueueState) : QueueState :=
  match s.inFlight with
  | [] => s
  | _ :: restFlight =>
    let _ := ok
    processQueue
      { s with
        inFlight := restFlight
        isProcessing := false }

/-- The two events the single-threaded event loop can deliver to the
queue: an enqueue from the audio path, or settlement of the in-flight
transcription call (ok = false models a rejected promise). -/
inductive QEvent where
  | enq (c : Nat)
  | done (ok : Bool)
deriving Repr, DecidableEq

def qstep (s : QueueState) (e : QEvent) : QueueState :=
  match e with
  | .enq c => enqueueChunk c s
  | .done ok => completeChunk ok s

def qrun (es : List QEvent) : QueueState := es.foldl qstep QueueState.init

/-- Reachable-state invariant of the dispatch queue. -/
def QInv (s : QueueState) : Prop :=
  s.enqueued = s.invoked ++ s.pending ∧
  s.inFlight.length ≤ 1 ∧
  s.isProcessing = !s.inFlight.isEmpty ∧
  (s.inFlight = [] → s.pending = [])

/-! ### Part 2: voice-activity detection AudioWorklet processor
(src/public/audio-processor.js, class AudioVADProcessor)

Samples and the audio-context clock (currentTime, in seconds) are
rationals.  The audioLevel message carries the squared rms instead of
the rms itself (the square root is order-isomorphic and not needed by
any claim). -/

/-- Sum of squared samples of a frame (the loop of calculateRMS). -/
def sumSq (frame : List ℚ) : ℚ := (frame.map (fun x => x * x)).sum

/-- Mean of squared samples, the square of calculateRMS's result.
Rational division by zero gives 0; the empty-frame case (NaN in the
source) is handled explicitly in isSpeechFrame. -/
def meanSq (frame : List ℚ) : ℚ := sumSq frame / (frame.length : ℚ)

/-- The speech classifier: rms > speechThreshold, computed without a
square root.  For a nonempty frame, sqrt(sum/n) > t iff t < 0 or
t*t*n < sum (proved as isSpeechFrame_eq_rms_compare below); for an
empty frame the source computes sqrt(0/0) = NaN and NaN > t is false. -/
def isSpeechFrame (threshold : ℚ) (frame : List ℚ) : Bool :=
  if frame.length = 0 then false
  else if threshold < 0 then true
  else decide (threshold * threshold * (frame.length : ℚ) < sumSq frame)

structure VADState where
  speechThreshold : ℚ
  silenceDurationMs : ℚ
  minChunkDurationMs : ℚ
  maxChunkDurationMs : ℚ
  maxBufferSizeBytes : ℚ
  audioBuffer : List ℚ
  chunkStartTime : ℚ
  lastSpeechTime : ℚ
  chunkHasSpeech : Bool
deriving Repr, DecidableEq

/-- Constructor state (audio-processor.js lines 12-23): default
configuration, empty buffer, both clocks at the construction time t0. -/
def VADState.init (t0 : ℚ) : VADState :=
  ⟨1/50, 1500, 3000, 30000, 10 * 1024 * 1024, [], t0, t0, false⟩

/-- A configure message: absent fields keep the previous value (the ??
operator in the message handler). -/
structure VADConfig where
  speechThreshold : Option ℚ
  silenceDurationMs : Option ℚ
  minChunkDurationMs : Option ℚ
  maxChunkDurationMs : Option ℚ
  maxBufferSizeBytes : Option ℚ
deriving Repr, DecidableEq

/-- The configure branch of the message handler (lines 29-34). -/
def configure (c : VADConfig) (s : VADState) : VADState :=
  { s with
    speechThreshold := c.speechThreshold.getD s.speechThreshold
    silenceDurationMs := c.silenceDurationMs.getD s.silenceDurationMs
    minChunkDurationMs := c.minChunkDurationMs.getD s.minChunkDurationMs
    maxChunkDurationMs := c.maxChunkDurationMs.getD s.maxChunkDurationMs
    maxBufferSizeBytes := c.maxBufferSizeBytes.getD s.maxBufferSizeBytes }

/-- The reset branch of the message handler (lines 35-40). -/
def vadReset (now : ℚ) (s : VADState) : VADState :=
  { s with
    audioBuffer := []
    chunkStartTime := now
    lastSpeechTime := now
    chunkHasSpeech := false }

/-- Messages the processor posts to the main thread. -/
inductive VADMessage where
  | audioChunk (data : List ℚ) (timestamp : ℚ)
  | audioLevel (rmsSq : ℚ) (hasSpeech : Bool)
deriving Repr, DecidableEq

def isAudioChunkMsg : VADMessage → Bool
  | .audioChunk _ _ => true
  | .audioLevel _ _ => false

/-- sendChunk (lines 58-90): an empty buffer or one without speech is
discarded silently; otherwise the buffer is posted as an audioChunk.
Both branches clear the buffer, reset chunkStartTime to the current
clock and clear chunkHasSpeech; lastSpeechTime is untouched. -/
def sendChunk (now : ℚ) (s : VADState) : VADState × Option VADMessage :=
  if s.audioBuffer.isEmpty || !s.chunkHasSpeech then
    ({ s with
        audioBuffer := []
        chunkStartTime := now
        chunkHasSpeech := false }, none)
  else
    ({ s with
        audioBuffer := []
        chunkStartTime := now
        chunkHasSpeech := false },
      some (.audioChunk s.audioBuffer now))

/-- Buffer byte size: audioBuffer.length * 4 (Float32 samples). -/
def bufferBytes (s : VADState) : ℚ := (s.audioBuffer.length : ℚ) * 4

/-- The classify-and-append part of process (lines 104-118): update
lastSpeechTime / chunkHasSpeech on a speech frame, then append the
samples to the buffer FIRST (before the size check). -/
def processAppend (now : ℚ) (frame : List ℚ) (s : VADState) : VADState :=
  let hasSpeech := isSpeechFrame s.speechThreshold frame
  let s1 := if hasSpeech then
    { s with
      lastSpeechTime := now
      chunkHasSpeech := true }
    else s
  { s1 with audioBuffer := s1.audioBuffer ++ frame }

/-- The silence / max-length flush condition of process (lines 130-138),
evaluated on the state left by the buffer-size check. -/
def shouldSendAfter (now : ℚ) (s : VADState) : Bool :=
  (decide (s.silenceDurationMs ≤ (now - s.lastSpeechTime) * 1000)
    && decide (s.minChunkDurationMs ≤ (now - s.chunkStartTime) * 1000))
  || decide (s.maxChunkDurationMs ≤ (now - s.chunkStartTime) * 1000)

/-- The flush decisions of process AFTER the append (lines 120-142):
first the buffer-size check (strictly above the ceiling forces a
sendChunk), then the silence / max-length check on the possibly reset
state. -/
def processChecks (now : ℚ) (s : VADState) : VADState × List VADMessage :=
  let r1 := if s.maxBufferSizeBytes < bufferBytes s then sendChunk now s else (s, none)
  let r2 := if shouldSendAfter now r1.1 then sendChunk now r1.1 else (r1.1, none)
  (r2.1, r1.2.toList ++ r2.2.toList)

/-- One process call on an input block (lines 95-153).  The trailing
audioLevel message carries the frame's (squared) rms and speech flag. -/
def processFrame (now : ℚ) (frame : List ℚ) (s : VADState) : VADState × List VADMessage :=
  let hasSpeech := isSpeechFrame s.speechThreshold frame
  let r := processChecks now (processAppend now frame s)
  (r.1, r.2 ++ [.audioLevel (meanSq frame) hasSpeech])

/-- Run the processor over a list of (clock, frame) inputs, collecting
all posted messages. -/
def runProcess (s : VADState) : List (ℚ × List ℚ) → VADState × List VADMessage
  | [] => (s, [])
  | (now, frame) :: rest =>
    let r1 := processFrame now frame s
    let r2 := runProcess r1.1 rest
    (r2.1, r1.2 ++ r2.2)

/-- A configure message that only lowers the buffer ceiling (to 512
bytes), used to exhibit the transient overflow concretely. -/
def smallBufferCfg : VADConfig := ⟨none, none, none, none, some 512⟩

/-! ### Part 3 (definitions used early): whisper transcribe entry point
(useWhisperTranscription.transcribe). -/

/-- lib/constants.ts: MIN_CHUNK_DURATION_MS. -/
def MIN_CHUNK_DURATION_MS : Nat := 2000

/-- lib/constants.ts: SAMPLE_RATE. -/
def SAMPLE_RATE : Nat := 16000

/-- transcribe: MIN_SAMPLES = Math.floor((MIN_CHUNK_DURATION_MS / 1000) * SAMPLE_RATE).
2000 is divisible by 1000, so natural division is exact here. -/
def MIN_SAMPLES : Nat := (MIN_CHUNK_DURATION_MS / 1000) * SAMPLE_RATE

/-- What the transcribe entry point does with its argument before any
worker interaction: either return the empty string at once, or post a
transcription request for the audio to the worker. -/
inductive TranscribeAction where
  | skipEmpty
  | postRequest (audio : List ℚ)
deriving Repr, DecidableEq

/-- The validation at the top of transcribe (useWhisperTranscription):
a missing array or one with fewer than MIN_SAMPLES samples is skipped
and resolves to the empty string; otherwise the request is posted. -/
def transcribeEntry (audioData : Option (List ℚ)) : TranscribeAction :=
  match audioData with
  | none => .skipEmpty
  | some a => if a.length < MIN_SAMPLES then .skipEmpty else .postRequest a

/-- Whether a TranscribeAction posts a message to the worker. -/
def actionPosts : TranscribeAction → Bool
  | .skipEmpty => false
  | .postRequest _ => true

/-- The immediate (pre-worker) result of a TranscribeAction: skipping
resolves the promise with the empty string right away. -/
def actionImmediateResult : TranscribeAction → Option String
  | .skipEmpty => some ""
  | .postRequest _ => none

/-- Replies the whisper worker can send for a posted request. -/
inductive WorkerReply where
  | result (text : String)
  | error (needsReload : Bool)
deriving Repr, DecidableEq

/-- How transcribe settles its promise on a worker reply
(useWhisperTranscription lines 121-147): a result resolves with its
text; an error message is absorbed and resolves with the empty string
instead of rejecting. -/
def transcribeSettle : WorkerReply → String
  | .result t => t
  | .error _ => ""

/-! ### Part 4: hallucination filtering
(src/app/whisper-worker.ts lines 136-163 and src/app/page.tsx,
handleAudioChunk, lines 322-356)

Strings are modelled as lists of characters.  The JS regular
expressions of the source are implemented directly: two
"(C) TV GELDERLAND nnnn"-shaped patterns, three keyword-to-end-of-input
patterns, and five bracketed literals, all case-insensitive with the g
flag and without the m flag. -/

/-- The character class matched by backslash-s in a JS regular
expression (ASCII whitespace plus the unicode space separators). -/
def isJsWs (c : Char) : Bool :=
  c = ' ' || c = '\t' || c = '\n' || c = '\x0b' || c = '\x0c' || c = '\r'
  || c = '\u00a0' || c = '\u1680' || ('\u2000' ≤ c && c ≤ '\u200a')
  || c = '\u2028' || c = '\u2029' || c = '\u202f' || c = '\u205f'
  || c = '\u3000' || c = '\ufeff'

/-- JS line terminators: the characters a regex dot does not match. -/
def isLineTerm (c : Char) : Bool :=
  c = '\n' || c = '\r' || c = '\u2028' || c = '\u2029'

/-- String.prototype.trim. -/
def jsTrim (s : List Char) : List Char :=
  ((s.dropWhile isJsWs).reverse.dropWhile isJsWs).reverse

/-- Case-insensitive literal match; returns the remainder on success. -/
def matchLit : List Char → List Char → Option (List Char)
  | [], s => some s
  | _ :: _, [] => none
  | l :: lt, c :: ct => if c.toLower = l.toLower then matchLit lt ct else none

/-- One or more whitespace characters, greedily (every use here is
followed by a non-whitespace literal or a digit, so greedy matching is
exact). -/
def matchWsPlus : List Char → Option (List Char)
  | [] => none
  | c :: ct => if isJsWs c then some (ct.dropWhile isJsWs) else none

/-- Exactly four decimal digits. -/
def matchDigits4 : List Char → Option (List Char)
  | c1 :: c2 :: c3 :: c4 :: rest =>
    if c1.isDigit && c2.isDigit && c3.isDigit && c4.isDigit then some rest else none
  | _ => none

/-- The worker pattern matching "(C)", optional whitespace, "TV",
whitespace, "GELDERLAND", whitespace, four digits (case-insensitive). -/
def matchGelderlandC (s : List Char) : Option (List Char) :=
  (matchLit "(c)".toList s).bind fun s1 =>
  (matchLit "tv".toList (s1.dropWhile isJsWs)).bind fun s2 =>
  (matchWsPlus s2).bind fun s3 =>
  (matchLit "gelderland".toList s3).bind fun s4 =>
  (matchWsPlus s4).bind fun s5 =>
  matchDigits4 s5

/-- The worker pattern matching "TV", whitespace, "GELDERLAND",
whitespace, four digits (case-insensitive). -/
def matchGelderland (s : List Char) : Option (List Char) :=
  (matchLit "tv".toList s).bind fun s2 =>
  (matchWsPlus s2).bind fun s3 =>
  (matchLit "gelderland".toList s3).bind fun s4 =>
  (matchWsPlus s4).bind fun s5 =>
  matchDigits4 s5

/-- A keyword followed by optional whitespace and a dot-star reaching
the end of the input (the worker's keyword-to-end patterns, no m flag):
the match succeeds iff, past the keyword and its maximal whitespace
run, no line terminator remains; the whole rest of the string is
consumed. -/
def matchToEnd (kw : List Char) (s : List Char) : Option (List Char) :=
  (matchLit kw s).bind fun t =>
  if (t.dropWhile isJsWs).all (fun c => !(isLineTerm c)) then some [] else none

/-- Global replacement of a pattern with the empty string: scan left to
right, non-overlapping, resuming after each match.  The length guard
encodes that every pattern used here consumes at least one character;
the fuel argument (always at least the list length, which the guard
preserves) makes the recursion structural. -/
def replaceAllPatAux (pat : List Char → Option (List Char)) : Nat → List Char → List Char
  | _, [] => []
  | 0, l => l
  | fuel + 1, c :: cs =>
    match pat (c :: cs) with
    | some rest =>
      if rest.length < cs.length + 1 then replaceAllPatAux pat fuel rest
      else c :: replaceAllPatAux pat fuel cs
    | none => c :: replaceAllPatAux pat fuel cs

def replaceAllPat (pat : List Char → Option (List Char)) (l : List Char) : List Char :=
  replaceAllPatAux pat l.length l

/-- The hallucinationPatterns array of the worker, in order. -/
def workerHallucinationPats : List (List Char → Option (List Char)) :=
  [matchGelderlandC, matchGelderland,
   matchToEnd "ondertiteling".toList,
   matchToEnd "ondertitels".toList,
   matchToEnd "bijdrage".toList]

/-- The worker's pattern loop: replace each pattern globally by the
empty string, trimming after each replacement. -/
def workerClean (text : List Char) : List Char :=
  workerHallucinationPats.foldl (fun t p => jsTrim (replaceAllPat p t)) text

/-- The character class of the worker's end-stripping regex:
whitespace, period, comma, and the other listed punctuation marks. -/
def isPunctWs (c : Char) : Bool :=
  isJsWs c || c = '.' || c = ',' || c = '!' || c = '?' || c = ';' || c = ':' || c = '-'

/-- The worker's cleanedForCheck: strip a leading and a trailing run of
punctuation/whitespace, then trim. -/
def stripPunctEnds (s : List Char) : List Char :=
  ((s.dropWhile isPunctWs).reverse.dropWhile isPunctWs).reverse

/-- An ASCII alphanumeric character (the worker's a-zA-Z0-9 class). -/
def isAlnumAscii (c : Char) : Bool :=
  ('a' ≤ c && c ≤ 'z') || ('A' ≤ c && c ≤ 'Z') || ('0' ≤ c && c ≤ '9')

def hasAlnum (s : List Char) : Bool := s.any isAlnumAscii

/-- The worker's result post-processing (whisper-worker.ts lines
136-163): strip the hallucination patterns, then send the empty string
instead if, after also stripping edge punctuation, no alphanumeric
character remains. -/
def workerResultText (text : List Char) : List Char :=
  let cleaned := workerClean text
  let check := jsTrim (stripPunctEnds cleaned)
  if check.length = 0 || !hasAlnum check then [] else cleaned

/-- The five bracketed hallucination literals stripped in
handleAudioChunk, in order. -/
def pageBracketPats : List (List Char → Option (List Char)) :=
  [matchLit "[muziek]".toList, matchLit "[music]".toList,
   matchLit "[applaus]".toList, matchLit "[laughter]".toList,
   matchLit "[gelach]".toList]

/-- handleAudioChunk's filter: trim, strip each bracketed literal
globally, trim again. -/
def pageFilter (text : List Char) : List Char :=
  jsTrim (pageBracketPats.foldl (fun t p => replaceAllPat p t) (jsTrim text))

/-- handleAudioChunk's insertion decision (page.tsx lines 322-356):
insert the filtered text iff the transcribe result is a nonempty,
non-blank string and the filter leaves something. -/
def handleAudioChunkInsert (text : List Char) : Option (List Char) :=
  if text ≠ [] ∧ jsTrim text ≠ [] then
    if pageFilter text ≠ [] then some (pageFilter text) else none
  else none

/-- The full path from a raw model output string to the text (if any)
inserted into the document: worker post-processing, transcribe
resolution, then handleAudioChunk. -/
def pipelineInsert (modelText : List Char) : Option (List Char) :=
  handleAudioChunkInsert (workerResultText modelText)

/-! ### Part 5: document merge engine
(src/components/TranscriptEditor.tsx, appendText, and the UneditedMark
plugin's appendTransaction of the tiptap extensions)

The document is a single ProseMirror paragraph; its inline content is a
list of characters, each carrying the attributes of its unedited mark
(none when the mark is absent).  ProseMirror's text nodes are the
maximal runs of characters with equal marks.  A position p inside the
paragraph sits before the character at offset p - 1 (position 0 is in
front of the paragraph node), and doc.content.size is the character
count plus two (the paragraph's open and close tokens). -/

/-- The attributes of the unedited mark: the edited flag and the
optional time attribute (default null). -/
structure MarkAttrs where
  edited : Bool
  time : Option Int
deriving Repr, DecidableEq

abbrev DocChar := Char × Option MarkAttrs

abbrev Doc := List DocChar

def docText (d : Doc) : List Char := d.map Prod.fst

/-- The mark attributes on the character at offset j (none when the
offset is out of range or the character is unmarked). -/
def attrsAt (d : Doc) (j : Nat) : Option MarkAttrs :=
  match d[j]? with
  | some c => c.2
  | none => none

/-- doc.content.size for a document of one paragraph. -/
def contentSize (d : Doc) : Nat := d.length + 2

/-- The marks at a position with character offset o inside the
paragraph (ResolvedPos.marks): the marks of the character before the
position, or of the character after it at the paragraph start.  The
unedited mark is inclusive (the default), so it is carried across its
end boundary. -/
def inheritedAttrs (d : Doc) (o : Nat) : Option MarkAttrs :=
  if o = 0 then attrsAt d 0 else attrsAt d (o - 1)

/-- tr.insertText(s, p): insert at position p (character offset p - 1);
the inserted text takes the marks at the insertion position. -/
def insertText (d : Doc) (s : List Char) (p : Nat) : Doc :=
  d.take (p - 1) ++ s.map (fun ch => (ch, inheritedAttrs d (p - 1))) ++ d.drop (p - 1)

/-- Map a function over the characters together with their offsets. -/
def mapOffsets (f : Nat → DocChar → DocChar) : Nat → Doc → Doc
  | _, [] => []
  | j, c :: cs => f j c :: mapOffsets f (j + 1) cs

/-- tr.addMark(pfrom, pto, mark): put the unedited mark with the given
attributes on the characters at positions [pfrom, pto), i.e. offsets
pfrom - 1 up to pto - 1; a mark replaces an existing mark of the same
type. -/
def addMark (d : Doc) (pfrom pto : Nat) (m : MarkAttrs) : Doc :=
  mapOffsets (fun j c => if pfrom - 1 ≤ j ∧ j < pto - 1 then (c.1, some m) else c) 0 d

/-- appendText's emptiness test:
state.doc.textContent.trim().length > 0. -/
def hasVisibleContent (d : Doc) : Bool := decide (0 < (jsTrim (docText d)).length)

/-- appendText (TranscriptEditor.tsx lines 57-89): build the mark
attributes {edited := false, time := timestampMs}, compute
endPos = doc.content.size - 1, insert the text there (with a leading
space unless the document has no visible content), and add the mark
over exactly the inserted range. -/
def appendText (d : Doc) (text : List Char) (timestampMs : Option Int) : Doc :=
  addMark
    (insertText d (if hasVisibleContent d then ' ' :: text else text) (contentSize d - 1))
    (contentSize d - 1)
    (contentSize d - 1 + (if hasVisibleContent d then ' ' :: text else text).length)
    ⟨false, timestampMs⟩

/-- What the plugin reads from each transaction of a batch: the
preventUneditedRemoval meta flag, docChanged, and the (newStart,
newEnd) entries of its steps' position maps. -/
structure TrSummary where
  programmatic : Bool
  docChanged : Bool
  ranges : List (Nat × Nat)
deriving Repr, DecidableEq

/-- An editor state: the document and the selection endpoints. -/
structure EditorState where
  doc : Doc
  selFrom : Nat
  selTo : Nat
deriving Repr, DecidableEq

/-- The start offset of the maximal equal-marks run (the ProseMirror
text node) containing offset j. -/
def runStart (d : Doc) : Nat → Nat
  | 0 => 0
  | j + 1 => if attrsAt d (j + 1) = attrsAt d j then runStart d j else j + 1

/-- Fuel-driven search for the end of the run containing offset j; the
fuel (instantiated with the document length) makes it structural. -/
def runEndAux (d : Doc) : Nat → Nat → Nat
  | 0, j => j + 1
  | fuel + 1, j =>
    if j + 1 < d.length ∧ attrsAt d (j + 1) = attrsAt d j then runEndAux d fuel (j + 1)
    else j + 1

/-- The end offset (exclusive) of the maximal equal-marks run
containing offset j. -/
def runEnd (d : Doc) (j : Nat) : Nat := runEndAux d d.length j

/-- One reclassification scan of the plugin, per character:
doc.nodesBetween(pfrom, pto) visits the paragraph iff 0 < pto and
pfrom < doc.content.size, and then a text node spanning offsets [a, b)
iff a < min(length, pto - 1) and pfrom - 1 < b; each visited text node
still carrying edited := false is rewritten wholesale (removeMark then
addMark) to edited := true with its time preserved.  The node
structure and the mark values are read from base (the plugin iterates
newState.doc) while the rewrite applies on top of the accumulated
transaction d. -/
def flipChar (base : Doc) (rf rt : Nat) (j : Nat) (c : DocChar) : DocChar :=
  match attrsAt base j with
  | some m =>
    if m.edited = false ∧ runStart base j < rt ∧ rf < runEnd base j then
      (c.1, some ⟨true, m.time⟩)
    else c
  | none => c

/-- A reclassification scan over positions [pfrom, pto): the guard is
the nodesBetween visit condition for the paragraph, and the per-node
flip is applied through flipChar at the node-relative range
(pfrom - 1, min length (pto - 1)). -/
def flipRangeOn (base : Doc) (pfrom pto : Nat) (d : Doc) : Doc :=
  if 0 < pto ∧ pfrom < base.length + 2 then
    mapOffsets (flipChar base (pfrom - 1) (min base.length (pto - 1))) 0 d
  else d

/-- The changed range of a batch: the minimum newStart and maximum
newEnd over the step maps of the docChanged transactions (none when no
map entries exist, matching the Infinity guard). -/
def changedBounds (trs : List TrSummary) : Option (Nat × Nat) :=
  match ((trs.filter (fun tr => tr.docChanged)).map (fun tr => tr.ranges)).flatten with
  | [] => none
  | r :: rest => some (rest.foldl (fun acc q => (min acc.1 q.1, max acc.2 q.2)) r)

/-- The document produced by the plugin's two scans: the new
selection's range when the selection changed, then the position-mapped
changed range when the document changed. -/
def pluginFlips (trs : List TrSummary) (old new : EditorState) : Doc :=
  let d1 := if ¬(old.selFrom = new.selFrom ∧ old.selTo = new.selTo) then
      flipRangeOn new.doc new.selFrom new.selTo new.doc
    else new.doc
  if trs.any (fun tr => tr.docChanged) then
    match changedBounds trs with
    | some b => flipRangeOn new.doc b.1 b.2 d1
    | none => d1
  else d1

/-- The UneditedMark plugin's appendTransaction (tiptap extensions):
return null for a batch containing the programmatic append; otherwise
run the two scans and return the rewritten document, or null when
nothing was flipped (every flip turns an edited := false character into
edited := true, so a flip happened iff the result differs from the
input document). -/
def appendTransaction (trs : List TrSummary) (old new : EditorState) : Option Doc :=
  if trs.any (fun tr => tr.programmatic) then none
  else if pluginFlips trs old new = new.doc then none
  else some (pluginFlips trs old new)

/-- The document the editor holds after dispatching a transaction batch
and running the plugin on it. -/
def pluginResultDoc (trs : List TrSummary) (old new : EditorState) : Doc :=
  match appendTransaction trs old new with
  | none => new.doc
  | some d2 => d2

/-- The transaction summary of the appendText dispatch: it carries the
preventUneditedRemoval meta flag, changes the document, and its single
insertion step maps the range [endPos, endPos + inserted length). -/
def appendTrSummary (d : Doc) (text : List Char) : TrSummary :=
  ⟨true, true,
    [(contentSize d - 1,
      contentSize d - 1 + (if hasVisibleContent d then ' ' :: text else text).length)]⟩

/-- The full dispatched appendText: apply appendText's transaction to
the old state and run the plugin pass over the batch; newSelF/newSelT
are the mapped selection endpoints of the new state. -/
def dispatchAppendText (old : EditorState) (newSelF newSelT : Nat)
    (text : List Char) (timestampMs : Option Int) : Doc :=
  pluginResultDoc [appendTrSummary old.doc text] old
    ⟨appendText old.doc text timestampMs, newSelF, newSelT⟩

/-- The visit condition of nodesBetween(pfrom, pto) for the text node
spanning offsets [a, b) of the paragraph. -/
def nodeTouches (base : Doc) (pfrom pto a b : Nat) : Prop :=
  (0 < pto ∧ pfrom < base.length + 2) ∧ a < min base.length (pto - 1) ∧ pfrom - 1 < b

instance (base : Doc) (pfrom pto a b : Nat) : Decidable (nodeTouches base pfrom pto a b) := by
  unfold nodeTouches
  infer_instance

end LiveTranscription

namespace LiveTranscription

/-! ## Theorems -/

theorem qinv_init : QInv QueueState.init :=
  ⟨rfl, by simp [QueueState.init], rfl, fun _ => rfl⟩

theorem qinv_enq (s : QueueState) (c : Nat) (h : QInv s) : QInv (enqueueChunk c s) := by
  obtain ⟨pd, pr, fl, iv, eq⟩ := s
  obtain ⟨h1, h2, h3, h4⟩ := h
  simp only at h1 h2 h3 h4
  cases pr with
  | false =>
    have hfl : fl = [] := by
      cases fl with
      | nil => rfl
      | cons a l => simp at h3
    have hpd : pd = [] := h4 hfl
    subst hfl; subst hpd
    simp only [List.append_nil] at h1
    subst h1
    refine ⟨?_, ?_, ?_, ?_⟩ <;> simp [QInv, enqueueChunk, processQueue]
  | true =>
    have hfl : fl ≠ [] := by
      intro hfl; subst hfl; simp at h3
    subst h1
    refine ⟨?_, ?_, ?_, ?_⟩ <;>
      simp [QInv, enqueueChunk, processQueue, h2, h3, hfl, List.append_assoc]

theorem qinv_done (s : QueueState) (ok : Bool) (h : QInv s) : QInv (completeChunk ok s) := by
  obtain ⟨pd, pr, fl, iv, eq⟩ := s
  obtain ⟨h1, h2, h3, h4⟩ := h
  simp only at h1 h2 h3 h4
  cases fl with
  | nil => exact ⟨h1, h2, h3, h4⟩
  | cons x restFlight =>
    have hrf : restFlight = [] := by simpa using h2
    subst hrf; subst h1
    cases pd with
    | nil => refine ⟨?_, ?_, ?_, ?_⟩ <;> simp [QInv, completeChunk, processQueue]
    | cons c rest =>
      refine ⟨?_, ?_, ?_, ?_⟩ <;> simp [QInv, completeChunk, processQueue]

theorem qinv_run_from (es : List QEvent) :
    ∀ s : QueueState, QInv s → QInv (es.foldl qstep s) := by
  induction es with
  | nil => intro s h; exact h
  | cons e rest ih =>
    intro s h
    cases e with
    | enq c => exact ih _ (qinv_enq s c h)
    | done ok => exact ih _ (qinv_done s ok h)

theorem qinv_reachable (es : List QEvent) : QInv (qrun es) :=
  qinv_run_from es QueueState.init qinv_init

/-- Draining: applying enough completion events invokes every still
pending chunk, in order. -/
theorem drain_invoked (k : Nat) :
    ∀ s : QueueState, QInv s → s.pending.length + s.inFlight.length ≤ k →
      ((List.replicate k (QEvent.done true)).foldl qstep s).invoked = s.invoked ++ s.pending := by
  induction k with
  | zero =>
    intro s h hk
    have hp : s.pending = [] := List.eq_nil_of_length_eq_zero (by omega)
    simp [hp]
  | succ k ih =>
    intro s h hk
    obtain ⟨pd, pr, fl, iv, eq⟩ := s
    obtain ⟨h1, h2, h3, h4⟩ := h
    simp only at h1 h2 h3 h4 hk ⊢
    rw [List.replicate_succ, List.foldl_cons]
    cases fl with
    | nil =>
      have hpd : pd = [] := h4 rfl
      subst hpd
      have hstep : qstep ⟨[], pr, [], iv, eq⟩ (QEvent.done true) = ⟨[], pr, [], iv, eq⟩ := by
        simp [qstep, completeChunk]
      rw [hstep, ih _ ⟨h1, h2, h3, h4⟩ (by simp)]
    | cons x restFlight =>
      have hrf : restFlight = [] := by simpa using h2
      subst hrf
      cases pd with
      | nil =>
        have hstep : qstep ⟨[], pr, [x], iv, eq⟩ (QEvent.done true)
            = ⟨[], false, [], iv, eq⟩ := by
          simp [qstep, completeChunk, processQueue]
        rw [hstep, ih _ ⟨by simpa using h1, by simp, by simp, fun _ => rfl⟩ (by simp)]
      | cons c rest =>
        have hstep : qstep ⟨c :: rest, pr, [x], iv, eq⟩ (QEvent.done true)
            = ⟨rest, true, [c], iv ++ [c], eq⟩ := by
          simp [qstep, completeChunk, processQueue]
        rw [hstep]
        have hk' : rest.length + 1 ≤ k := by simp at hk; omega
        rw [ih _ ⟨by simp [h1], by simp, by simp, by simp⟩ (by simpa using hk')]
        simp

/-- C1: for every sequence of events delivered to the dispatch queue,
the enqueue history equals the invocation history followed by the still
pending chunks (so the transcription callback is invoked on chunks in
enqueue order, each at most once so far); at most one invocation is in
flight in every reachable state; and after the in-flight call and every
pending chunk are allowed to settle, the invocation history equals the
enqueue history exactly (each chunk invoked exactly once, FIFO). -/
theorem dispatch_queue_fifo_one_in_flight (es : List QEvent) :
    (qrun es).enqueued = (qrun es).invoked ++ (qrun es).pending
    ∧ (qrun es).inFlight.length ≤ 1
    ∧ ((List.replicate ((qrun es).pending.length + (qrun es).inFlight.length)
        (QEvent.done true)).foldl qstep (qrun es)).invoked = (qrun es).enqueued := by
  have h := qinv_reachable es
  refine ⟨h.1, h.2.1, ?_⟩
  rw [drain_invoked _ _ h (Nat.le_refl _), h.1]

/-- C4: if the in-flight transcription call fails, the queue state
evolves exactly as on success (the rejection is caught, the finally
block runs), the next pending chunk is invoked immediately, and at the
transcribe layer an error reply is absorbed as the empty string. -/
theorem transcription_error_does_not_halt_queue (s : QueueState) (x c : Nat)
    (rest : List Nat) (hf : s.inFlight = [x]) (hp : s.pending = c :: rest) :
    completeChunk false s = completeChunk true s
    ∧ (completeChunk false s).invoked = s.invoked ++ [c]
    ∧ transcribeSettle (WorkerReply.error true) = "" := by
  obtain ⟨pd, pr, fl, iv, eq⟩ := s
  simp only at hf hp
  subst hf; subst hp
  refine ⟨rfl, ?_, rfl⟩
  simp [completeChunk, processQueue]

/-- Witness for C4 at a concrete reachable state: two chunks enqueued,
the first in flight; its failure still invokes the second. -/
theorem transcription_error_does_not_halt_queue_w :
    (qrun [QEvent.enq 0, QEvent.enq 1]).inFlight = [0]
    ∧ (qrun [QEvent.enq 0, QEvent.enq 1]).pending = [1]
    ∧ (completeChunk false (qrun [QEvent.enq 0, QEvent.enq 1])).invoked
        = (qrun [QEvent.enq 0, QEvent.enq 1]).invoked ++ [1] :=
  ⟨by decide, by decide,
    (transcription_error_does_not_halt_queue (qrun [QEvent.enq 0, QEvent.enq 1])
      0 1 [] (by decide) (by decide)).2.1⟩

/-- C10: an absent audio array, or one with fewer samples than the
minimum implied by MIN_CHUNK_DURATION_MS at SAMPLE_RATE, makes
transcribe return the empty string immediately without posting a
transcription request to the worker. -/
theorem transcribe_short_chunk_skipped (audioData : Option (List ℚ))
    (h : audioData = none ∨ (audioData.getD []).length < MIN_SAMPLES) :
    actionPosts (transcribeEntry audioData) = false
    ∧ actionImmediateResult (transcribeEntry audioData) = some ""
    ∧ MIN_SAMPLES = (MIN_CHUNK_DURATION_MS / 1000) * SAMPLE_RATE := by
  rcases h with h | h
  · subst h; exact ⟨rfl, rfl, rfl⟩
  · cases audioData with
    | none => exact ⟨rfl, rfl, rfl⟩
    | some a =>
      have ha : a.length < MIN_SAMPLES := by simpa using h
      refine ⟨?_, ?_, rfl⟩ <;>
        simp [transcribeEntry, ha, actionPosts, actionImmediateResult]

/-- Witness for C10: the empty array is skipped. -/
theorem transcribe_short_chunk_skipped_w :
    ((some [] : Option (List ℚ)) = none ∨ ((some [] : Option (List ℚ)).getD []).length < MIN_SAMPLES)
    ∧ actionPosts (transcribeEntry (some [])) = false :=
  ⟨Or.inr (by decide),
    (transcribe_short_chunk_skipped (some []) (Or.inr (by decide))).1⟩

/-! ### VAD theorems -/

/-- The squared-comparison classifier agrees with the source's
rms > threshold comparison over the reals, for nonempty frames. -/
theorem isSpeechFrame_eq_rms_compare (threshold : ℚ) (frame : List ℚ) (h : frame ≠ []) :
    isSpeechFrame threshold frame = true
      ↔ (threshold : ℝ) < Real.sqrt ((sumSq frame : ℝ) / (frame.length : ℝ)) := by
  have hn : (0:ℝ) < (frame.length : ℝ) := by
    have := List.length_pos.mpr h
    exact_mod_cast this
  unfold isSpeechFrame
  rw [if_neg (fun hh => h (List.length_eq_zero.mp hh))]
  by_cases ht : threshold < 0
  · rw [if_pos ht]
    simp only [true_iff]
    have h0 : (threshold : ℝ) < 0 := by exact_mod_cast ht
    exact lt_of_lt_of_le h0 (Real.sqrt_nonneg _)
  · rw [if_neg ht]
    have ht' : (0:ℝ) ≤ (threshold : ℝ) := by
      have := not_lt.mp ht
      exact_mod_cast this
    rw [Real.lt_sqrt ht', lt_div_iff₀ hn]
    simp only [decide_eq_true_eq]
    rw [show ((threshold:ℝ))^2 * (frame.length:ℝ)
        = ((threshold * threshold * (frame.length : ℚ) : ℚ) : ℝ) by push_cast; ring]
    exact (Rat.cast_lt (K := ℝ)).symm

/-- Both branches of sendChunk produce the same next state. -/
theorem sendChunk_fst (now : ℚ) (s : VADState) :
    (sendChunk now s).1
      = { s with audioBuffer := [], chunkStartTime := now, chunkHasSpeech := false } := by
  unfold sendChunk
  split <;> rfl

/-- A flush of a buffer without speech posts nothing. -/
theorem sendChunk_discard (now : ℚ) (s : VADState) (h : s.chunkHasSpeech = false) :
    (sendChunk now s).2 = none := by
  simp [sendChunk, h]

theorem processChecks_nospeech (now : ℚ) (s : VADState) (h : s.chunkHasSpeech = false) :
    (processChecks now s).1.chunkHasSpeech = false
    ∧ (processChecks now s).1.speechThreshold = s.speechThreshold
    ∧ (processChecks now s).2 = [] := by
  unfold processChecks
  by_cases h1 : s.maxBufferSizeBytes < bufferBytes s <;>
    simp only [if_pos, if_neg, h1, if_true, if_false, sendChunk_fst] <;>
    by_cases h2 : shouldSendAfter now
      { s with audioBuffer := [], chunkStartTime := now, chunkHasSpeech := false } = true <;>
    by_cases h3 : shouldSendAfter now s = true <;>
    simp [h2, h3, sendChunk_fst, sendChunk_discard, h]

theorem processFrame_nospeech (now : ℚ) (frame : List ℚ) (s : VADState)
    (h : s.chunkHasSpeech = false)
    (hf : isSpeechFrame s.speechThreshold frame = false) :
    (processFrame now frame s).1.chunkHasSpeech = false
    ∧ (processFrame now frame s).1.speechThreshold = s.speechThreshold
    ∧ ∀ m ∈ (processFrame now frame s).2, isAudioChunkMsg m = false := by
  have ha : processAppend now frame s = { s with audioBuffer := s.audioBuffer ++ frame } := by
    simp [processAppend, hf]
  obtain ⟨c1, c2, c3⟩ :=
    processChecks_nospeech now { s with audioBuffer := s.audioBuffer ++ frame } (by simpa using h)
  unfold processFrame
  rw [ha]
  refine ⟨by simpa using c1, by simpa using c2, ?_⟩
  intro m hm
  simp only [c3, List.nil_append, List.mem_singleton] at hm
  subst hm
  rfl

theorem runProcess_nospeech (frames : List (ℚ × List ℚ)) :
    ∀ s : VADState, s.chunkHasSpeech = false →
      (∀ p ∈ frames, isSpeechFrame s.speechThreshold p.2 = false) →
      (runProcess s frames).1.chunkHasSpeech = false
      ∧ (runProcess s frames).1.speechThreshold = s.speechThreshold
      ∧ ∀ m ∈ (runProcess s frames).2, isAudioChunkMsg m = false := by
  induction frames with
  | nil =>
    intro s h _
    exact ⟨h, rfl, by simp [runProcess]⟩
  | cons p rest ih =>
    intro s h hf
    obtain ⟨now, frame⟩ := p
    obtain ⟨f1, f2, f3⟩ :=
      processFrame_nospeech now frame s h (hf (now, frame) (List.mem_cons_self _ _))
    obtain ⟨r1, r2, r3⟩ := ih (processFrame now frame s).1 f1
      (fun q hq => by rw [f2]; exact hf q (List.mem_cons_of_mem _ hq))
    refine ⟨?_, ?_, ?_⟩
    · simpa [runProcess] using r1
    · simp only [runProcess]
      rw [r2, f2]
    · intro m hm
      simp only [runProcess, List.mem_append] at hm
      rcases hm with hm | hm
      · exact f3 m hm
      · exact r3 m hm

/-- C2: starting from any state whose buffer has seen no speech, a run
of frames none of which crosses the rms speech threshold posts no
audioChunk message at all; moreover every flush of a buffer whose
chunkHasSpeech flag is false discards the buffer silently (no message,
buffer cleared). -/
theorem vad_pure_silence_never_dispatched (s : VADState) (frames : List (ℚ × List ℚ))
    (hs : s.chunkHasSpeech = false)
    (hf : ∀ p ∈ frames, isSpeechFrame s.speechThreshold p.2 = false) :
    (∀ m ∈ (runProcess s frames).2, isAudioChunkMsg m = false)
    ∧ ∀ now st, st.chunkHasSpeech = false →
        (sendChunk now st).2 = none ∧ (sendChunk now st).1.audioBuffer = [] := by
  refine ⟨(runProcess_nospeech frames s hs hf).2.2, ?_⟩
  intro now st h
  exact ⟨sendChunk_discard now st h, by rw [sendChunk_fst]⟩

theorem processAppend_nospeech (now : ℚ) (frame : List ℚ) (s : VADState)
    (hf : isSpeechFrame s.speechThreshold frame = false) :
    processAppend now frame s = { s with audioBuffer := s.audioBuffer ++ frame } := by
  simp [processAppend, hf]

theorem processChecks_no_flush (now : ℚ) (s : VADState)
    (h1 : ¬ s.maxBufferSizeBytes < bufferBytes s)
    (h2 : shouldSendAfter now s = false) :
    processChecks now s = (s, []) := by
  simp [processChecks, h1, h2]

theorem processChecks_overflow_silent (now : ℚ) (s : VADState)
    (h1 : s.maxBufferSizeBytes < bufferBytes s)
    (hhs : s.chunkHasSpeech = false)
    (h2 : shouldSendAfter now
      { s with audioBuffer := [], chunkStartTime := now, chunkHasSpeech := false } = false) :
    processChecks now s
      = ({ s with audioBuffer := [], chunkStartTime := now, chunkHasSpeech := false }, []) := by
  simp [processChecks, h1, sendChunk_fst, sendChunk_discard _ _ hhs, h2]

theorem sumSq_replicate_zero (n : ℕ) : sumSq (List.replicate n (0:ℚ)) = 0 := by
  induction n with
  | zero => rfl
  | succ n ih =>
    rw [List.replicate_succ]
    simp only [sumSq, List.map_cons, List.sum_cons] at ih ⊢
    rw [ih]
    norm_num

theorem isSpeechFrame_zero_frame (t : ℚ) (ht : 0 ≤ t) (n : ℕ) :
    isSpeechFrame t (List.replicate n (0:ℚ)) = false := by
  unfold isSpeechFrame
  rcases Nat.eq_zero_or_pos n with h | h
  · simp [h]
  · rw [if_neg (by simpa using Nat.pos_iff_ne_zero.mp h)]
    rw [if_neg (not_lt.mpr ht)]
    simp only [decide_eq_false_iff_not, not_lt, sumSq_replicate_zero,
      List.length_replicate]
    positivity

/-- Witness for C2: two blocks of 128 zero samples through a fresh
processor post no audioChunk. -/
theorem vad_pure_silence_never_dispatched_w :
    (VADState.init 0).chunkHasSpeech = false
    ∧ (∀ p ∈ [((0:ℚ), List.replicate 128 (0:ℚ)), ((1:ℚ), List.replicate 128 (0:ℚ))],
        isSpeechFrame (VADState.init 0).speechThreshold p.2 = false)
    ∧ ∀ m ∈ (runProcess (VADState.init 0)
        [((0:ℚ), List.replicate 128 (0:ℚ)), ((1:ℚ), List.replicate 128 (0:ℚ))]).2,
        isAudioChunkMsg m = false := by
  have hf : ∀ p ∈ [((0:ℚ), List.replicate 128 (0:ℚ)), ((1:ℚ), List.replicate 128 (0:ℚ))],
      isSpeechFrame (VADState.init 0).speechThreshold p.2 = false := by
    intro p hp
    have ht : (0:ℚ) ≤ (VADState.init 0).speechThreshold := by norm_num [VADState.init]
    fin_cases hp <;> exact isSpeechFrame_zero_frame _ ht 128
  exact ⟨rfl, hf,
    (vad_pure_silence_never_dispatched (VADState.init 0)
      [((0:ℚ), List.replicate 128 (0:ℚ)), ((1:ℚ), List.replicate 128 (0:ℚ))] rfl hf).1⟩

/-- Counterexample for C3: the source appends the frame first and only
then compares the buffer size to the ceiling, so immediately after an
append the buffer byte size can exceed maxBufferSizeBytes.  Concretely:
ceiling configured to 512 bytes, one 128-sample block buffered (512
bytes), the next append reaches 1024 bytes before the forced flush runs
(which then empties the buffer by the end of the process step). -/
theorem vad_buffer_exceeds_ceiling_right_after_append :
    bufferBytes (processAppend 0 (List.replicate 128 (0:ℚ))
        (processFrame 0 (List.replicate 128 (0:ℚ))
          (configure smallBufferCfg (VADState.init 0))).1)
      > (processAppend 0 (List.replicate 128 (0:ℚ))
        (processFrame 0 (List.replicate 128 (0:ℚ))
          (configure smallBufferCfg (VADState.init 0))).1).maxBufferSizeBytes
    ∧ (processFrame 0 (List.replicate 128 (0:ℚ))
        (processFrame 0 (List.replicate 128 (0:ℚ))
          (configure smallBufferCfg (VADState.init 0))).1).1.audioBuffer = [] := by
  have hsp : isSpeechFrame (1/50 : ℚ) (List.replicate 128 (0:ℚ)) = false :=
    isSpeechFrame_zero_frame _ (by norm_num) 128
  have h0 : configure smallBufferCfg (VADState.init 0)
      = ⟨1/50, 1500, 3000, 30000, 512, [], 0, 0, false⟩ := rfl
  have hA0 : processAppend 0 (List.replicate 128 (0:ℚ))
        (⟨1/50, 1500, 3000, 30000, 512, [], 0, 0, false⟩ : VADState)
      = ⟨1/50, 1500, 3000, 30000, 512, List.replicate 128 (0:ℚ), 0, 0, false⟩ := by
    rw [processAppend_nospeech 0 (List.replicate 128 (0:ℚ))
      (⟨1/50, 1500, 3000, 30000, 512, [], 0, 0, false⟩ : VADState) hsp]
    rfl
  have hbb : bufferBytes ⟨1/50, 1500, 3000, 30000, 512, List.replicate 128 (0:ℚ), 0, 0, false⟩
      = 512 := by
    norm_num [bufferBytes]
  have hss1 : shouldSendAfter 0
      (⟨1/50, 1500, 3000, 30000, 512, List.replicate 128 (0:ℚ), 0, 0, false⟩ : VADState)
      = false := by
    simp only [shouldSendAfter, Bool.or_eq_false_iff, Bool.and_eq_false_iff,
      decide_eq_false_iff_not]
    norm_num
  have hC0 : processChecks 0 (⟨1/50, 1500, 3000, 30000, 512,
        List.replicate 128 (0:ℚ), 0, 0, false⟩ : VADState)
      = (⟨1/50, 1500, 3000, 30000, 512, List.replicate 128 (0:ℚ), 0, 0, false⟩, []) :=
    processChecks_no_flush 0 _ (by rw [hbb]; norm_num) hss1
  have h1 : (processFrame 0 (List.replicate 128 (0:ℚ))
        (configure smallBufferCfg (VADState.init 0))).1
      = ⟨1/50, 1500, 3000, 30000, 512, List.replicate 128 (0:ℚ), 0, 0, false⟩ := by
    rw [h0]
    simp only [processFrame, hA0, hC0]
  have hA1 : processAppend 0 (List.replicate 128 (0:ℚ))
        (⟨1/50, 1500, 3000, 30000, 512, List.replicate 128 (0:ℚ), 0, 0, false⟩ : VADState)
      = ⟨1/50, 1500, 3000, 30000, 512,
          List.replicate 128 (0:ℚ) ++ List.replicate 128 (0:ℚ), 0, 0, false⟩ := by
    rw [processAppend_nospeech 0 (List.replicate 128 (0:ℚ))
      (⟨1/50, 1500, 3000, 30000, 512, List.replicate 128 (0:ℚ), 0, 0, false⟩ : VADState) hsp]
  have hbb2 : bufferBytes ⟨1/50, 1500, 3000, 30000, 512,
        List.replicate 128 (0:ℚ) ++ List.replicate 128 (0:ℚ), 0, 0, false⟩ = 1024 := by
    norm_num [bufferBytes]
  have hss2 : shouldSendAfter 0
      (⟨1/50, 1500, 3000, 30000, 512, [], 0, 0, false⟩ : VADState) = false := by
    simp only [shouldSendAfter, Bool.or_eq_false_iff, Bool.and_eq_false_iff,
      decide_eq_false_iff_not]
    norm_num
  constructor
  · rw [h1, hA1, hbb2]
    norm_num
  · rw [h1]
    simp only [processFrame, hA1]
    rw [processChecks_overflow_silent 0
      (⟨1/50, 1500, 3000, 30000, 512,
        List.replicate 128 (0:ℚ) ++ List.replicate 128 (0:ℚ), 0, 0, false⟩ : VADState)
      (by rw [hbb2]; norm_num) rfl hss2]

/-- C3 (amended): the forced flush runs in the same process step, right
after the append, so at the end of every process call the buffer byte
size is at most the (nonnegative) ceiling. -/
theorem vad_buffer_ceiling_holds_after_each_process_step (s : VADState) (now : ℚ)
    (frame : List ℚ) (h : 0 ≤ s.maxBufferSizeBytes) :
    bufferBytes (processFrame now frame s).1 ≤ s.maxBufferSizeBytes := by
  have hmax : (processAppend now frame s).maxBufferSizeBytes = s.maxBufferSizeBytes := by
    unfold processAppend
    by_cases hsp : isSpeechFrame s.speechThreshold frame = true <;> simp [hsp]
  suffices hPC : ∀ t : VADState, t.maxBufferSizeBytes = s.maxBufferSizeBytes →
      bufferBytes (processChecks now t).1 ≤ s.maxBufferSizeBytes by
    simpa only [processFrame] using hPC (processAppend now frame s) hmax
  intro t ht
  simp only [processChecks]
  by_cases h1 : t.maxBufferSizeBytes < bufferBytes t
  · rw [if_pos h1]
    have hempty : ∀ r : VADState, r.audioBuffer = [] →
        bufferBytes r ≤ s.maxBufferSizeBytes := by
      intro r hr
      simp [bufferBytes, hr, h]
    apply hempty
    split
    · rw [sendChunk_fst]
    · rw [sendChunk_fst]
  · rw [if_neg h1]
    have hle : bufferBytes t ≤ s.maxBufferSizeBytes := ht ▸ le_of_not_lt h1
    split
    · rw [sendChunk_fst]
      simp [bufferBytes, h]
    · exact hle

/-! ### Filter theorems (C9) -/

theorem hasAlnum_false_mono (s t : List Char) (hsub : ∀ c, c ∈ t → c ∈ s)
    (h : hasAlnum s = false) : hasAlnum t = false := by
  rw [hasAlnum, List.any_eq_false] at h ⊢
  exact fun c hc => h c (hsub c hc)

theorem hasAlnum_true_mono (s t : List Char) (hsub : ∀ c, c ∈ t → c ∈ s)
    (h : hasAlnum t = true) : hasAlnum s = true := by
  rw [hasAlnum, List.any_eq_true] at h ⊢
  obtain ⟨c, hc, hp⟩ := h
  exact ⟨c, hsub c hc, hp⟩

theorem mem_of_mem_jsTrim (s : List Char) (c : Char) (h : c ∈ jsTrim s) : c ∈ s := by
  unfold jsTrim at h
  have h1 := (List.dropWhile_suffix isJsWs).subset (List.mem_reverse.mp h)
  exact (List.dropWhile_suffix isJsWs).subset (List.mem_reverse.mp h1)

theorem mem_of_mem_stripPunctEnds (s : List Char) (c : Char)
    (h : c ∈ stripPunctEnds s) : c ∈ s := by
  unfold stripPunctEnds at h
  have h1 := (List.dropWhile_suffix isPunctWs).subset (List.mem_reverse.mp h)
  exact (List.dropWhile_suffix isPunctWs).subset (List.mem_reverse.mp h1)

/-- C9: along the whole path from a raw model output string to the
document, the worker's hallucination-pattern stripping and the page's
bracketed-tag stripping are the only transformations applied, and a
result that is purely punctuation/whitespace after stripping (no
alphanumeric character) is discarded: if the cleaned text has no
alphanumeric character nothing is inserted, and whenever something is
inserted it equals the page filter applied to the worker-cleaned text
(which does contain an alphanumeric character). -/
theorem hallucination_filtered_and_punct_only_discarded (s : List Char) :
    (hasAlnum (workerClean s) = false → pipelineInsert s = none)
    ∧ ∀ t, pipelineInsert s = some t →
        t = pageFilter (workerClean s) ∧ hasAlnum (workerClean s) = true := by
  constructor
  · intro h
    have hchk : hasAlnum (jsTrim (stripPunctEnds (workerClean s))) = false :=
      hasAlnum_false_mono _ _
        (fun c hc => mem_of_mem_stripPunctEnds _ _ (mem_of_mem_jsTrim _ _ hc)) h
    have hw : workerResultText s = [] := by
      simp only [workerResultText, hchk]
      simp
    unfold pipelineInsert
    rw [hw]
    simp [handleAudioChunkInsert]
  · intro t ht
    unfold pipelineInsert at ht
    by_cases hc : ((jsTrim (stripPunctEnds (workerClean s))).length = 0
        || !hasAlnum (jsTrim (stripPunctEnds (workerClean s)))) = true
    · have hw : workerResultText s = [] := by
        simp only [workerResultText]
        rw [if_pos hc]
      rw [hw] at ht
      simp [handleAudioChunkInsert] at ht
    · have hw : workerResultText s = workerClean s := by
        simp only [workerResultText]
        rw [if_neg hc]
      rw [hw] at ht
      have hb : hasAlnum (jsTrim (stripPunctEnds (workerClean s))) = true := by
        rcases Bool.eq_false_or_eq_true
            (hasAlnum (jsTrim (stripPunctEnds (workerClean s)))) with hh | hh
        · exact hh
        · exact absurd (by rw [hh]; simp) hc
      have halnum : hasAlnum (workerClean s) = true :=
        hasAlnum_true_mono _ _
          (fun c hcm => mem_of_mem_stripPunctEnds _ _ (mem_of_mem_jsTrim _ _ hcm)) hb
      unfold handleAudioChunkInsert at ht
      by_cases h1 : workerClean s ≠ [] ∧ jsTrim (workerClean s) ≠ []
      · rw [if_pos h1] at ht
        by_cases h2 : pageFilter (workerClean s) ≠ []
        · rw [if_pos h2] at ht
          exact ⟨(Option.some.inj ht).symm, halnum⟩
        · rw [if_neg h2] at ht
          exact absurd ht (by simp)
      · rw [if_neg h1] at ht
        exact absurd ht (by simp)

/-- Witness for C9: a punctuation-only result is discarded, and a clean
phrase passes through both filters unchanged. -/
theorem hallucination_filtered_and_punct_only_discarded_w :
    (hasAlnum (workerClean ".,!?".toList) = false ∧ pipelineInsert ".,!?".toList = none)
    ∧ (pipelineInsert "hallo daar".toList = some ("hallo daar".toList)
        ∧ "hallo daar".toList = pageFilter (workerClean "hallo daar".toList)) :=
  ⟨⟨by decide,
    (hallucination_filtered_and_punct_only_discarded ".,!?".toList).1 (by decide)⟩,
  ⟨by decide,
    ((hallucination_filtered_and_punct_only_discarded "hallo daar".toList).2
      ("hallo daar".toList) (by decide)).1⟩⟩

/-! ### Merge engine theorems -/

theorem mapOffsets_getElem (f : Nat → DocChar → DocChar) :
    ∀ (d : Doc) (k j : Nat), (mapOffsets f k d)[j]? = (d[j]?).map (f (k + j)) := by
  intro d
  induction d with
  | nil => intro k j; simp [mapOffsets]
  | cons c cs ih =>
    intro k j
    cases j with
    | zero => simp [mapOffsets]
    | succ j =>
      simp only [mapOffsets, List.getElem?_cons_succ]
      rw [show k + (j + 1) = k + 1 + j by omega]
      exact ih (k + 1) j

theorem mapOffsets_length (f : Nat → DocChar → DocChar) :
    ∀ (d : Doc) (k : Nat), (mapOffsets f k d).length = d.length := by
  intro d
  induction d with
  | nil => intro k; rfl
  | cons c cs ih => intro k; simp [mapOffsets, ih]

theorem docText_mapOffsets (f : Nat → DocChar → DocChar)
    (hf : ∀ j c, (f j c).1 = c.1) :
    ∀ (d : Doc) (k : Nat), docText (mapOffsets f k d) = docText d := by
  intro d
  induction d with
  | nil => intro k; rfl
  | cons c cs ih =>
    intro k
    simp only [mapOffsets, docText, List.map_cons]
    rw [hf k c]
    have := ih (k + 1)
    simp only [docText] at this
    rw [this]

theorem attrsAt_addMark_in (d : Doc) (pfrom pto : Nat) (m : MarkAttrs) (j : Nat)
    (h1 : pfrom - 1 ≤ j) (h2 : j < pto - 1) (h3 : j < d.length) :
    attrsAt (addMark d pfrom pto m) j = some m := by
  unfold attrsAt addMark
  rw [mapOffsets_getElem, List.getElem?_eq_getElem h3]
  simp only [Nat.zero_add]
  have hmap : Option.map
      (fun c => if pfrom - 1 ≤ j ∧ j < pto - 1 then (c.1, some m) else c) (some d[j])
      = some (if pfrom - 1 ≤ j ∧ j < pto - 1 then ((d[j]).1, some m) else d[j]) := rfl
  rw [hmap, if_pos ⟨h1, h2⟩]

theorem docText_addMark (d : Doc) (pfrom pto : Nat) (m : MarkAttrs) :
    docText (addMark d pfrom pto m) = docText d := by
  unfold addMark
  apply docText_mapOffsets
  intro j c
  split <;> rfl

theorem addMark_length (d : Doc) (pfrom pto : Nat) (m : MarkAttrs) :
    (addMark d pfrom pto m).length = d.length :=
  mapOffsets_length _ d 0

theorem insertText_end (d : Doc) (s : List Char) :
    insertText d s (contentSize d - 1)
      = d ++ s.map (fun ch => (ch, inheritedAttrs d d.length)) := by
  unfold insertText contentSize
  have h : d.length + 2 - 1 - 1 = d.length := by omega
  rw [h, List.take_length, List.drop_length, List.append_nil]

/-- What appendText does, in one statement: the inserted text (with the
conditional space) lands at the end of the content, the length grows by
it, and every inserted character carries the mark
{edited := false, time := timestampMs}. -/
theorem appendText_spec (d : Doc) (text : List Char) (ts : Option Int) :
    docText (appendText d text ts)
      = docText d ++ (if hasVisibleContent d then ' ' :: text else text)
    ∧ (appendText d text ts).length
      = d.length + (if hasVisibleContent d then ' ' :: text else text).length
    ∧ ∀ j, d.length ≤ j →
        j < d.length + (if hasVisibleContent d then ' ' :: text else text).length →
        attrsAt (appendText d text ts) j = some ⟨false, ts⟩ := by
  unfold appendText
  rw [insertText_end]
  refine ⟨?_, ?_, ?_⟩
  · rw [docText_addMark]
    unfold docText
    rw [List.map_append, List.map_map]
    simp [Function.comp_def]
  · rw [addMark_length]
    simp [List.length_append, List.length_map]
  · intro j hj1 hj2
    apply attrsAt_addMark_in
    · unfold contentSize; omega
    · unfold contentSize
      omega
    · simp only [List.length_append, List.length_map]; omega

theorem appendTransaction_programmatic (trs : List TrSummary) (old new : EditorState)
    (h : trs.any (fun tr => tr.programmatic) = true) :
    appendTransaction trs old new = none := by
  unfold appendTransaction
  rw [h]
  rfl

theorem pluginResultDoc_nonprog (trs : List TrSummary) (old new : EditorState)
    (h : trs.any (fun tr => tr.programmatic) = false) :
    pluginResultDoc trs old new = pluginFlips trs old new := by
  unfold pluginResultDoc appendTransaction
  rw [h]
  simp only [Bool.false_eq_true, if_false]
  by_cases he : pluginFlips trs old new = new.doc
  · rw [if_pos he]
    exact he.symm
  · rw [if_neg he]

theorem dispatchAppendText_eq (old : EditorState) (nf nt : Nat)
    (text : List Char) (ts : Option Int) :
    dispatchAppendText old nf nt text ts = appendText old.doc text ts := by
  unfold dispatchAppendText pluginResultDoc
  rw [appendTransaction_programmatic _ _ _ (by simp [appendTrSummary])]

/-- C5: appendText inserts " " ++ text at the logical end of content
when the document has visible content, and text alone when it does not;
the entire inserted run carries the machine-origin mark
{edited := false, time := timestampMs}.  Stated over the full dispatch
(the append transaction followed by the plugin pass). -/
theorem appendText_end_insertion_and_mark (old : EditorState) (nf nt : Nat)
    (text : List Char) (ts : Int) :
    docText (dispatchAppendText old nf nt text (some ts))
      = docText old.doc ++ (if hasVisibleContent old.doc then ' ' :: text else text)
    ∧ ∀ j, old.doc.length ≤ j →
        j < old.doc.length + (if hasVisibleContent old.doc then ' ' :: text else text).length →
        attrsAt (dispatchAppendText old nf nt text (some ts)) j
          = some ⟨false, some ts⟩ := by
  rw [dispatchAppendText_eq]
  obtain ⟨h1, _, h3⟩ := appendText_spec old.doc text (some ts)
  exact ⟨h1, h3⟩

/-- Witness for C5: appending to the empty document gives the bare text
with the {edited := false, time := 5000} mark on its first character. -/
theorem appendText_end_insertion_and_mark_w :
    docText (dispatchAppendText ⟨[], 1, 1⟩ 1 1 ("hallo daar".toList) (some 5000))
      = docText ([] : Doc)
        ++ (if hasVisibleContent ([] : Doc) then ' ' :: "hallo daar".toList
            else "hallo daar".toList)
    ∧ (([] : Doc).length ≤ 0
        ∧ 0 < ([] : Doc).length
            + (if hasVisibleContent ([] : Doc) then ' ' :: "hallo daar".toList
               else "hallo daar".toList).length)
    ∧ attrsAt (dispatchAppendText ⟨[], 1, 1⟩ 1 1 ("hallo daar".toList) (some 5000)) 0
        = some ⟨false, some 5000⟩ :=
  ⟨(appendText_end_insertion_and_mark ⟨[], 1, 1⟩ 1 1 ("hallo daar".toList) 5000).1,
   ⟨by decide, by decide⟩,
   (appendText_end_insertion_and_mark ⟨[], 1, 1⟩ 1 1 ("hallo daar".toList) 5000).2
     0 (by decide) (by decide)⟩

/-- C6: the engine's own append transaction carries the programmatic
meta flag, so appendTransaction returns null for it (no
reclassification pass runs), and immediately after the dispatched
appendText the whole inserted span still reads edited := false. -/
theorem appendText_not_self_reclassified (old : EditorState) (nf nt : Nat)
    (text : List Char) (ts : Option Int) :
    appendTransaction [appendTrSummary old.doc text] old
      ⟨appendText old.doc text ts, nf, nt⟩ = none
    ∧ ∀ j, old.doc.length ≤ j →
        j < old.doc.length + (if hasVisibleContent old.doc then ' ' :: text else text).length →
        attrsAt (dispatchAppendText old nf nt text ts) j = some ⟨false, ts⟩ := by
  refine ⟨appendTransaction_programmatic _ _ _ (by simp [appendTrSummary]), ?_⟩
  rw [dispatchAppendText_eq]
  exact (appendText_spec old.doc text ts).2.2

/-- Witness for C6 on a document that already has content. -/
theorem appendText_not_self_reclassified_w :
    appendTransaction
      [appendTrSummary [(('a' : Char), none)] ("hi".toList)] ⟨[(('a' : Char), none)], 1, 1⟩
      ⟨appendText [(('a' : Char), none)] ("hi".toList) (some 7), 1, 1⟩ = none
    ∧ (([(('a' : Char), none)] : Doc).length ≤ 1
        ∧ 1 < ([(('a' : Char), none)] : Doc).length
            + (if hasVisibleContent [(('a' : Char), none)] then ' ' :: "hi".toList
               else "hi".toList).length)
    ∧ attrsAt (dispatchAppendText ⟨[(('a' : Char), none)], 1, 1⟩ 1 1 ("hi".toList) (some 7)) 1
        = some ⟨false, some 7⟩ :=
  ⟨(appendText_not_self_reclassified ⟨[(('a' : Char), none)], 1, 1⟩ 1 1 ("hi".toList)
      (some 7)).1,
   ⟨by decide, by decide⟩,
   (appendText_not_self_reclassified ⟨[(('a' : Char), none)], 1, 1⟩ 1 1 ("hi".toList)
      (some 7)).2 1 (by decide) (by decide)⟩

theorem runStart_le_self (d : Doc) : ∀ j, runStart d j ≤ j := by
  intro j
  induction j with
  | zero => exact Nat.le_refl 0
  | succ j ih =>
    simp only [runStart]
    split
    · exact Nat.le_trans ih (Nat.le_succ j)
    · exact Nat.le_refl _

theorem runStart_le_of_uniform (d : Doc) (a : Nat) :
    ∀ j, a ≤ j → (∀ k, a ≤ k → k < j → attrsAt d (k + 1) = attrsAt d k) →
      runStart d j ≤ a := by
  intro j
  induction j with
  | zero => intro _ _; exact Nat.zero_le a
  | succ j ih =>
    intro ha h
    rcases Nat.lt_or_ge a (j + 1) with hlt | hge
    · have heq : attrsAt d (j + 1) = attrsAt d j := h j (by omega) (by omega)
      simp only [runStart, if_pos heq]
      exact ih (by omega) (fun k hk1 hk2 => h k hk1 (by omega))
    · have : a = j + 1 := by omega
      subst this
      exact runStart_le_self d _

theorem runEndAux_ge (d : Doc) : ∀ fuel j, j + 1 ≤ runEndAux d fuel j := by
  intro fuel
  induction fuel with
  | zero => intro j; exact Nat.le_refl _
  | succ fuel ih =>
    intro j
    simp only [runEndAux]
    split
    · exact Nat.le_trans (by omega) (ih (j + 1))
    · exact Nat.le_refl _

theorem runEndAux_ge_of_uniform (d : Doc) (b : Nat) (hb : b ≤ d.length) :
    ∀ fuel j, j < b → b ≤ j + fuel + 1 →
      (∀ k, j ≤ k → k + 1 < b → attrsAt d (k + 1) = attrsAt d k) →
      b ≤ runEndAux d fuel j := by
  intro fuel
  induction fuel with
  | zero =>
    intro j hj hfuel _
    simp only [runEndAux]
    omega
  | succ fuel ih =>
    intro j hj hfuel h
    simp only [runEndAux]
    by_cases hcond : j + 1 < d.length ∧ attrsAt d (j + 1) = attrsAt d j
    · rw [if_pos hcond]
      rcases Nat.lt_or_ge (j + 1) b with hlt | hge
      · exact ih (j + 1) hlt (by omega) (fun k hk1 hk2 => h k (by omega) hk2)
      · exact Nat.le_trans (by omega : b ≤ (j + 1) + 1) (runEndAux_ge d fuel (j + 1))
    · rw [if_neg hcond]
      rcases Nat.lt_or_ge (j + 1) b with hlt | hge
      · exact absurd ⟨by omega, h j (Nat.le_refl j) hlt⟩ hcond
      · omega

theorem runEnd_ge_of_uniform (d : Doc) (b j : Nat) (hj : j < b) (hb : b ≤ d.length)
    (h : ∀ k, j ≤ k → k + 1 < b → attrsAt d (k + 1) = attrsAt d k) :
    b ≤ runEnd d j :=
  runEndAux_ge_of_uniform d b hb d.length j hj (by omega) h

theorem runStart_eq_of_run (d : Doc) (a b : Nat) (m : MarkAttrs)
    (hrun : ∀ k, a ≤ k → k < b → attrsAt d k = some m)
    (hml : a = 0 ∨ attrsAt d (a - 1) ≠ some m) :
    ∀ j, a ≤ j → j < b → runStart d j = a := by
  intro j
  induction j with
  | zero =>
    intro hja _
    have : a = 0 := by omega
    subst this; rfl
  | succ j ih =>
    intro hja hjb
    rcases Nat.lt_or_ge a (j + 1) with hlt | hge
    · have h1 : attrsAt d (j + 1) = some m := hrun _ (by omega) hjb
      have h2 : attrsAt d j = some m := hrun _ (by omega) (by omega)
      simp only [runStart, if_pos (h1.trans h2.symm)]
      exact ih (by omega) (by omega)
    · have ha : a = j + 1 := by omega
      rcases hml with h0 | hne
      · omega
      · have h1 : attrsAt d (j + 1) = some m := hrun _ (by omega) hjb
        have hne2 : attrsAt d j ≠ some m := by
          rw [ha] at hne
          simpa using hne
        have hneq : ¬(attrsAt d (j + 1) = attrsAt d j) := fun hc => hne2 (hc ▸ h1)
        simp only [runStart, if_neg hneq]
        omega

theorem runEndAux_eq_of_run (d : Doc) (a b : Nat) (m : MarkAttrs) (hbn : b ≤ d.length)
    (hrun : ∀ k, a ≤ k → k < b → attrsAt d k = some m)
    (hmr : b = d.length ∨ attrsAt d b ≠ some m) :
    ∀ fuel j, a ≤ j → j < b → b ≤ j + fuel + 1 → runEndAux d fuel j = b := by
  intro fuel
  induction fuel with
  | zero =>
    intro j _ hjb hf
    simp only [runEndAux]
    omega
  | succ fuel ih =>
    intro j hja hjb hf
    simp only [runEndAux]
    rcases Nat.lt_or_ge (j + 1) b with hlt | hge
    · have hc : j + 1 < d.length ∧ attrsAt d (j + 1) = attrsAt d j := by
        refine ⟨by omega, ?_⟩
        rw [hrun _ (by omega) hlt, hrun _ hja hjb]
      rw [if_pos hc]
      exact ih (j + 1) (by omega) hlt (by omega)
    · have hb1 : b = j + 1 := by omega
      have hc : ¬(j + 1 < d.length ∧ attrsAt d (j + 1) = attrsAt d j) := by
        rintro ⟨hc1, hc2⟩
        rcases hmr with h0 | hne
        · omega
        · apply hne
          rw [hb1, hc2]
          exact hrun _ hja hjb
      rw [if_neg hc]
      omega

theorem runEnd_eq_of_run (d : Doc) (a b : Nat) (m : MarkAttrs) (hbn : b ≤ d.length)
    (hrun : ∀ k, a ≤ k → k < b → attrsAt d k = some m)
    (hmr : b = d.length ∨ attrsAt d b ≠ some m) :
    ∀ j, a ≤ j → j < b → runEnd d j = b :=
  fun j hja hjb =>
    runEndAux_eq_of_run d a b m hbn hrun hmr d.length j hja hjb (by omega)

theorem attrsAt_eq_snd (d : Doc) (j : Nat) (hj : j < d.length) :
    attrsAt d j = (d[j]).2 := by
  unfold attrsAt
  rw [List.getElem?_eq_getElem hj]

theorem attrsAt_mapOffsets (f : Nat → DocChar → DocChar) (d : Doc) (j : Nat)
    (hj : j < d.length) :
    attrsAt (mapOffsets f 0 d) j = (f j d[j]).2 := by
  unfold attrsAt
  rw [mapOffsets_getElem, List.getElem?_eq_getElem hj]
  simp only [Nat.zero_add]
  rfl

theorem flipChar_flips (base : Doc) (rf rt j : Nat) (m : MarkAttrs) (c : DocChar)
    (hm : attrsAt base j = some m) (hme : m.edited = false)
    (h1 : runStart base j < rt) (h2 : rf < runEnd base j) :
    flipChar base rf rt j c = (c.1, some ⟨true, m.time⟩) := by
  unfold flipChar
  rw [hm]
  simp only [if_pos (And.intro hme (And.intro h1 h2))]

theorem flipChar_skips (base : Doc) (rf rt j : Nat) (c : DocChar)
    (h : ∀ m, attrsAt base j = some m → m.edited = false →
      ¬(runStart base j < rt ∧ rf < runEnd base j)) :
    flipChar base rf rt j c = c := by
  unfold flipChar
  cases hm : attrsAt base j with
  | none => rfl
  | some m =>
    show (if m.edited = false ∧ runStart base j < rt ∧ rf < runEnd base j then
        (c.1, some ⟨true, m.time⟩) else c) = c
    exact if_neg (by rintro ⟨hme, hr⟩; exact h m hm hme hr)

theorem attrsAt_flipRangeOn_flips (base d : Doc) (pfrom pto j : Nat) (m : MarkAttrs)
    (hg1 : 0 < pto) (hg2 : pfrom < base.length + 2)
    (hm : attrsAt base j = some m) (hme : m.edited = false)
    (h1 : runStart base j < min base.length (pto - 1))
    (h2 : pfrom - 1 < runEnd base j)
    (hj : j < d.length) :
    attrsAt (flipRangeOn base pfrom pto d) j = some ⟨true, m.time⟩ := by
  unfold flipRangeOn
  rw [if_pos ⟨hg1, hg2⟩, attrsAt_mapOffsets _ _ _ hj,
    flipChar_flips base _ _ j m _ hm hme h1 h2]

theorem attrsAt_flipRangeOn_skips (base d : Doc) (pfrom pto j : Nat)
    (h : ∀ m, attrsAt base j = some m → m.edited = false →
      ¬(runStart base j < min base.length (pto - 1) ∧ pfrom - 1 < runEnd base j)) :
    attrsAt (flipRangeOn base pfrom pto d) j = attrsAt d j := by
  unfold flipRangeOn
  by_cases hg : 0 < pto ∧ pfrom < base.length + 2
  · rw [if_pos hg]
    rcases Nat.lt_or_ge j d.length with hj | hj
    · rw [attrsAt_mapOffsets _ _ _ hj, flipChar_skips base _ _ j _ h, attrsAt_eq_snd d j hj]
    · unfold attrsAt
      rw [List.getElem?_eq_none (by rw [mapOffsets_length]; exact hj),
        List.getElem?_eq_none hj]
  · rw [if_neg hg]

theorem attrsAt_flipRangeOn_preserves_run (base d : Doc) (pfrom pto a b j : Nat)
    (hrs : runStart base j = a) (hre : runEnd base j = b)
    (h : ¬ nodeTouches base pfrom pto a b) :
    attrsAt (flipRangeOn base pfrom pto d) j = attrsAt d j := by
  unfold flipRangeOn
  by_cases hg : 0 < pto ∧ pfrom < base.length + 2
  · rw [if_pos hg]
    rcases Nat.lt_or_ge j d.length with hj | hj
    · rw [attrsAt_mapOffsets _ _ _ hj,
        flipChar_skips base _ _ j _ ?_, attrsAt_eq_snd d j hj]
      intro m _ _ hr
      exact h ⟨hg, by rw [← hrs, ← hre]; exact hr⟩
    · unfold attrsAt
      rw [List.getElem?_eq_none (by rw [mapOffsets_length]; exact hj),
        List.getElem?_eq_none hj]
  · rw [if_neg hg]

/-- C7: with an unedited machine-origin span covering offsets [a, b) of
the document and carrying time t, a selection-only transaction that
moves the cursor to a position p strictly inside the span (no document
mutation) flips every character of the span to edited := true with the
time attribute still t. -/
theorem cursor_entry_flips_span_time_preserved (old : EditorState) (d : Doc)
    (trs : List TrSummary) (a b p : Nat) (t : Option Int)
    (hprog : trs.any (fun tr => tr.programmatic) = false)
    (hdoc : trs.any (fun tr => tr.docChanged) = false)
    (hbn : b ≤ d.length)
    (hrun : ∀ j, a ≤ j → j < b → attrsAt d j = some ⟨false, t⟩)
    (hp1 : a + 2 ≤ p) (hp2 : p ≤ b)
    (hsel : ¬(old.selFrom = p ∧ old.selTo = p)) :
    ∀ j, a ≤ j → j < b →
      attrsAt (pluginResultDoc trs old ⟨d, p, p⟩) j = some ⟨true, t⟩ := by
  intro j hja hjb
  rw [pluginResultDoc_nonprog _ _ _ hprog]
  unfold pluginFlips
  rw [hdoc]
  simp only [Bool.false_eq_true, if_false]
  rw [if_pos hsel]
  have hflip := attrsAt_flipRangeOn_flips d d p p j ⟨false, t⟩
    (by omega) (by omega) (hrun j hja hjb) rfl ?_ ?_ (by omega)
  · exact hflip
  · have hle : runStart d j ≤ a := by
      apply runStart_le_of_uniform d a j hja
      intro k hk1 hk2
      rw [hrun _ (by omega) (by omega), hrun _ (by omega) (by omega)]
    have hmin : a < min d.length (p - 1) := by
      apply Nat.lt_min.mpr
      constructor <;> omega
    omega
  · have hge : b ≤ runEnd d j := by
      apply runEnd_ge_of_uniform d b j hjb hbn
      intro k hk1 hk2
      rw [hrun _ (by omega) (by omega), hrun _ (by omega) (by omega)]
    omega

/-- Witness for C7: a four-character unedited span with time 5000; the
cursor moves to position 2 (strictly inside); the first character flips
to edited := true with its time intact. -/
theorem cursor_entry_flips_span_time_preserved_w :
    (([⟨false, false, []⟩] : List TrSummary).any (fun tr => tr.programmatic) = false
      ∧ ([⟨false, false, []⟩] : List TrSummary).any (fun tr => tr.docChanged) = false
      ∧ ¬((9:Nat) = 2 ∧ (9:Nat) = 2))
    ∧ attrsAt (pluginResultDoc [⟨false, false, []⟩] ⟨[], 9, 9⟩
        ⟨[('a', some ⟨false, some 5000⟩), ('b', some ⟨false, some 5000⟩),
          ('c', some ⟨false, some 5000⟩), ('d', some ⟨false, some 5000⟩)], 2, 2⟩) 0
      = some ⟨true, some 5000⟩ :=
  ⟨⟨by decide, by decide, by decide⟩,
    cursor_entry_flips_span_time_preserved ⟨[], 9, 9⟩
      [('a', some ⟨false, some 5000⟩), ('b', some ⟨false, some 5000⟩),
        ('c', some ⟨false, some 5000⟩), ('d', some ⟨false, some 5000⟩)]
      [⟨false, false, []⟩] 0 4 2 (some 5000)
      (by decide) (by decide) (by decide)
      (by intro j _ hj; interval_cases j <;> rfl)
      (by decide) (by decide) (by decide)
      0 (by decide) (by decide)⟩

/-- C8: the reclassification pass after a document mutation only
rewrites marks inside the position-mapped changed range (and the new
selection's range): a maximal unedited span lying entirely outside both
keeps its mark attributes unchanged. -/
theorem reclassification_scan_is_local (trs : List TrSummary) (old new : EditorState)
    (a b : Nat) (m : MarkAttrs)
    (hprog : trs.any (fun tr => tr.programmatic) = false)
    (hbn : b ≤ new.doc.length)
    (hrun : ∀ j, a ≤ j → j < b → attrsAt new.doc j = some m)
    (hml : a = 0 ∨ attrsAt new.doc (a - 1) ≠ some m)
    (hmr : b = new.doc.length ∨ attrsAt new.doc b ≠ some m)
    (hsel : ¬ nodeTouches new.doc new.selFrom new.selTo a b)
    (hchg : ∀ cf ct, changedBounds trs = some (cf, ct) →
      ¬ nodeTouches new.doc cf ct a b) :
    ∀ j, a ≤ j → j < b → attrsAt (pluginResultDoc trs old new) j = some m := by
  intro j hja hjb
  rw [pluginResultDoc_nonprog _ _ _ hprog]
  unfold pluginFlips
  have hrs : runStart new.doc j = a := runStart_eq_of_run new.doc a b m hrun hml j hja hjb
  have hre : runEnd new.doc j = b := runEnd_eq_of_run new.doc a b m hbn hrun hmr j hja hjb
  have hd1 : ∀ dX : Doc,
      attrsAt (if ¬(old.selFrom = new.selFrom ∧ old.selTo = new.selTo) then
        flipRangeOn new.doc new.selFrom new.selTo new.doc else new.doc) j
      = attrsAt new.doc j := by
    intro dX
    split
    · exact attrsAt_flipRangeOn_preserves_run new.doc new.doc _ _ a b j hrs hre hsel
    · rfl
  by_cases hdc : trs.any (fun tr => tr.docChanged) = true
  · rw [hdc]
    simp only [if_true]
    cases hcb : changedBounds trs with
    | none =>
      rw [hd1 new.doc]
      exact hrun j hja hjb
    | some bnds =>
      rw [attrsAt_flipRangeOn_preserves_run new.doc _ _ _ a b j hrs hre
        (hchg bnds.1 bnds.2 (by rw [hcb]))]
      rw [hd1 new.doc]
      exact hrun j hja hjb
  · rw [Bool.not_eq_true] at hdc
    rw [hdc]
    simp only [Bool.false_eq_true, if_false]
    rw [hd1 new.doc]
    exact hrun j hja hjb

/-- Witness for C8: the document "ab.xy.cd" region where "ab" and "cd"
are distinct unedited spans; a keystroke inserts a character at
position 3 (inside the plain "xy" text), mapping ranges (3, 4) with the
new cursor at 4; the far span at offsets [5, 7) keeps its mark. -/
theorem reclassification_scan_is_local_w :
    (([⟨false, true, [(3, 4)]⟩] : List TrSummary).any (fun tr => tr.programmatic) = false
      ∧ (7:Nat) ≤ ([('a', some ⟨false, some 5⟩), ('b', some ⟨false, some 5⟩),
          ('z', none), ('x', none), ('y', none),
          ('c', some ⟨false, some 9⟩), ('d', some ⟨false, some 9⟩)] : Doc).length)
    ∧ attrsAt (pluginResultDoc [⟨false, true, [(3, 4)]⟩] ⟨[], 3, 3⟩
        ⟨[('a', some ⟨false, some 5⟩), ('b', some ⟨false, some 5⟩),
          ('z', none), ('x', none), ('y', none),
          ('c', some ⟨false, some 9⟩), ('d', some ⟨false, some 9⟩)], 4, 4⟩) 5
      = some ⟨false, some 9⟩ :=
  ⟨⟨by decide, by decide⟩,
    reclassification_scan_is_local [⟨false, true, [(3, 4)]⟩] ⟨[], 3, 3⟩
      ⟨[('a', some ⟨false, some 5⟩), ('b', some ⟨false, some 5⟩),
        ('z', none), ('x', none), ('y', none),
        ('c', some ⟨false, some 9⟩), ('d', some ⟨false, some 9⟩)], 4, 4⟩
      5 7 ⟨false, some 9⟩
      (by decide) (by decide)
      (by intro j h1 h2; interval_cases j <;> rfl)
      (by right; decide) (by left; rfl)
      (by decide)
      (by intro cf ct h
          have hcf : cf = 3 ∧ ct = 4 := by
            simp [changedBounds] at h
            omega
          obtain ⟨rfl, rfl⟩ := hcf
          decide)
      5 (by decide) (by decide)⟩

/-- Witness for the amended C3 on a fresh processor and empty frame. -/
theorem vad_buffer_ceiling_holds_after_each_process_step_w :
    (0:ℚ) ≤ (VADState.init 0).maxBufferSizeBytes
    ∧ bufferBytes (processFrame 0 [] (VADState.init 0)).1 ≤ (VADState.init 0).maxBufferSizeBytes :=
  ⟨by norm_num [VADState.init],
    vad_buffer_ceiling_holds_after_each_process_step (VADState.init 0) 0 []
      (by norm_num [VADState.init])⟩

end LiveTranscription
